import Mathlib

/-!
Verification of `swap_erase` / `move_erase` and of the partitioned accumulation.

Shallow embedding of

* `src/swap-erase/swap-erase-benchmark.cpp`
  (`NotSmallObject`, `swap_erase`, `move_erase`), and
* `src/sequential-vs-parallel-accumulate/accumulate-sequential-vs-parallel.cpp`
  (`sequential_acc`, `parallel_acc`).

Conventions.

* A `std::vector<T>` is a `List T`; an iterator is the integer offset from
  `v.begin()` (an `Int`, since `swap_erase` rewinds the cursor below
  `v.begin()`).
* Dereferencing an iterator outside `[0, size)` is undefined behaviour and is
  modelled by `none`; running out of fuel is `none` as well, so a theorem
  `f x = some r` says that the run is well defined and terminates.
* Machine integers are `Nat`/`Int` reduced explicitly: `unsigned int` modulo
  `2^32`, `std::size_t` and `long unsigned int` modulo `2^64`, `long` in two's
  complement on 64 bits (LP64).
-/

set_option autoImplicit false

namespace SwapErase

/-! ## Instrumented machine state -/

/-- Observable events of one run of the erase loop. Positions are offsets from
`v.begin()`. -/
inductive Access where
  /-- The loop test `it < iter_to_last`, with the two iterator values. -/
  | test (it last : Int)
  /-- A call `condition(*it)` on the element at the position. -/
  | call (pos : Int)
  /-- An element transfer (`std::iter_swap` or move assignment) between the
  cursor position `dst` and the tail position `src`. -/
  | transfer (dst src : Int)
  deriving DecidableEq, Repr

/-- Local state of `swap_erase` / `move_erase`: the vector, the cursor `it`, the
boundary `iter_to_last`, and the log of events so far (most recent first). -/
structure Frame (α : Type) where
  v : List α
  it : Int
  iter_to_last : Int
  log : List Access

variable {α : Type}

/-- Read through an iterator: `*p`. Undefined outside `[0, size)`. -/
def deref (v : List α) (p : Int) : Option α :=
  if 0 ≤ p then v[p.toNat]? else none

/-- Write through an iterator: `*p = x`. Undefined outside `[0, size)`. -/
def store (v : List α) (p : Int) (x : α) : Option (List α) :=
  if 0 ≤ p ∧ p < v.length then some (v.set p.toNat x) else none

/-- The call `v.erase(first, v.end())`: keeps `[begin, first)`. Undefined when
`first` is not an iterator into `v`. -/
def erase_to_end (v : List α) (first : Int) : Option (List α) :=
  if 0 ≤ first ∧ first ≤ v.length then some (v.take first.toNat) else none

/-- The loop `for(auto it = ...; it < iter_to_last; ++it) body`, started in a
frame whose `it` and `iter_to_last` are already initialised. Each round logs
the test, runs the body and then performs `++it`. -/
def for_loop (body : Frame α → Option (Frame α)) : Nat → Frame α → Option (Frame α)
  | 0, _ => none
  | fuel + 1, s =>
    let s1 : Frame α := { s with log := Access.test s.it s.iter_to_last :: s.log }
    if s1.it < s1.iter_to_last then
      match body s1 with
      | none => none
      | some s2 => for_loop body fuel { s2 with it := s2.it + 1 }
    else some s1

/-- Body of the loop of `swap_erase` (lines 54-61):
`if(condition(*it)) std::iter_swap(it--, --iter_to_last);`. -/
def swap_body (condition : α → Bool) (s : Frame α) : Option (Frame α) :=
  match deref s.v s.it with
  | none => none
  | some x =>
    let log1 := Access.call s.it :: s.log
    if condition x then
      let last := s.iter_to_last - 1
      match deref s.v last with
      | none => none
      | some y =>
        match store s.v s.it y with
        | none => none
        | some v1 =>
          match store v1 last x with
          | none => none
          | some v2 =>
            some { v := v2, it := s.it - 1, iter_to_last := last,
                   log := Access.transfer s.it last :: log1 }
    else some { s with log := log1 }

/-- Body of the loop of `move_erase` (lines 74-77):
`if(condition(*it)) { *it = std::move(*(--iter_to_last)); --it; }`.
`moved y` is the state in which the move assignment leaves its source. -/
def move_body (moved : α → α) (condition : α → Bool) (s : Frame α) : Option (Frame α) :=
  match deref s.v s.it with
  | none => none
  | some x =>
    let log1 := Access.call s.it :: s.log
    if condition x then
      let last := s.iter_to_last - 1
      match deref s.v last with
      | none => none
      | some y =>
        match store s.v s.it y with
        | none => none
        | some v1 =>
          match store v1 last (moved y) with
          | none => none
          | some v2 =>
            some { v := v2, it := s.it - 1, iter_to_last := last,
                   log := Access.transfer s.it last :: log1 }
    else some { s with log := log1 }

/-- Frame at loop entry: `iter_to_last = v.end()`, `it = v.begin()`. -/
def entry (v : List α) : Frame α :=
  { v := v, it := 0, iter_to_last := v.length, log := [] }

/-- The loop of `swap_erase`, run to its exit; the fuel `size + 1` covers one
test per element plus the failing test. -/
def swap_run (v : List α) (condition : α → Bool) : Option (Frame α) :=
  for_loop (swap_body condition) (v.length + 1) (entry v)

/-- The loop of `move_erase`, run to its exit. -/
def move_run (moved : α → α) (v : List α) (condition : α → Bool) : Option (Frame α) :=
  for_loop (move_body moved condition) (v.length + 1) (entry v)

/-- Function `swap_erase(v, condition)`: the contents of `v` on return. -/
def swap_erase (v : List α) (condition : α → Bool) : Option (List α) :=
  match swap_run v condition with
  | none => none
  | some s => erase_to_end s.v s.iter_to_last

/-- Function `move_erase(v, condition)`: the contents of `v` on return. -/
def move_erase (moved : α → α) (v : List α) (condition : α → Bool) : Option (List α) :=
  match move_run moved v condition with
  | none => none
  | some s => erase_to_end s.v s.iter_to_last

/-- The baseline of `test` (line 118), `v.erase(std::remove_if(...), v.end())`:
the stable removal of the elements satisfying the condition. -/
def remove_erase (v : List α) (condition : α → Bool) : List α :=
  v.filter (fun x => !condition x)

/-- Number of `condition(*it)` calls in a log. -/
def calls (log : List Access) : Nat :=
  log.countP (fun e => match e with | Access.call _ => true | _ => false)

/-- Number of element transfers in a log. -/
def transfers (log : List Access) : Nat :=
  log.countP (fun e => match e with | Access.transfer _ _ => true | _ => false)

/-- Validity of a logged event for a vector of `n` elements: every position
read or written is in `[0, n)`, and a loop test sees `it ≤ iter_to_last ≤ n`. -/
def Access.valid (n : Nat) : Access → Prop
  | Access.test it last => it ≤ last ∧ last ≤ n
  | Access.call pos => 0 ≤ pos ∧ pos < n
  | Access.transfer dst src => 0 ≤ dst ∧ dst < n ∧ 0 ≤ src ∧ src < n

instance (n : Nat) (e : Access) : Decidable (Access.valid n e) := by
  cases e <;> unfold Access.valid <;> infer_instance

/-- Behaviour shared by the two loop bodies, on a vector split around the
cursor (and, for a transfer, around the last unclassified element). -/
structure BodySpec (condition : α → Bool) (body : Frame α → Option (Frame α)) : Prop where
  keep : ∀ (s : Frame α) (A R : List α) (x : α), s.v = A ++ x :: R → s.it = A.length →
    condition x = false → body s = some { s with log := Access.call s.it :: s.log }
  last : ∀ (s : Frame α) (A T : List α) (x : α), s.v = A ++ x :: T → s.it = A.length →
    s.iter_to_last = A.length + 1 → condition x = true →
    ∃ x1, body s = some
      { v := A ++ x1 :: T, it := s.it - 1, iter_to_last := s.iter_to_last - 1,
        log := Access.transfer s.it (s.iter_to_last - 1) :: Access.call s.it :: s.log }
  rot : ∀ (s : Frame α) (A M T : List α) (x y : α), s.v = A ++ x :: (M ++ y :: T) →
    s.it = A.length → s.iter_to_last = A.length + M.length + 2 → condition x = true →
    ∃ y1, body s = some
      { v := A ++ y :: (M ++ y1 :: T), it := s.it - 1, iter_to_last := s.iter_to_last - 1,
        log := Access.transfer s.it (s.iter_to_last - 1) :: Access.call s.it :: s.log }

/-! ## `NotSmallObject` -/

/-- Conversion to `std::size_t` (64 bits). -/
def size_t (n : Nat) : Nat := n % 2 ^ 64

/-- Conversion to `unsigned int` (32 bits). -/
def uint (n : Nat) : Nat := n % 2 ^ 32

/-- The struct `NotSmallObject`: a vector of `std::size_t` and its size. -/
structure NotSmallObject where
  v : List Nat
  size : Nat
  deriving DecidableEq, Repr

/-- The call `std::iota(first, last, 0u)` on `len` slots: the counter is an
`unsigned int` starting at `0u`, incremented after each store. -/
def iota (len : Nat) : List Nat :=
  (List.range len).map uint

/-- Generating constructor `NotSmallObject(mt, sz)` (lines 20-27); `draw` is the
value `dist(mt)` returned by the distribution over `[0, sz]`. -/
def NotSmallObject.generate (draw : Nat) : NotSmallObject :=
  { v := iota draw, size := draw }

/-- Method `is_smaller_than` (lines 32-34). -/
def NotSmallObject.is_smaller_than (o : NotSmallObject) (n : Nat) : Bool :=
  decide (o.size < n)

/-- The call `std::accumulate(first, last, 0u)` over `std::size_t` elements: the
accumulator has the type of the initial value `0u`, `unsigned int`; each round
computes `acc + *it` in `std::size_t` and converts it back on assignment. -/
def accumulate_uint (xs : List Nat) (init : Nat) : Nat :=
  xs.foldl (fun acc x => uint (size_t (acc + x))) init

/-- Method `is_sum_smaller_than` (lines 39-41):
`return std::accumulate(v.begin(), v.end(), 0u) < n;`. -/
def NotSmallObject.is_sum_smaller_than (o : NotSmallObject) (n : Nat) : Bool :=
  decide (accumulate_uint o.v 0 < n)

/-- The lambda `is_small` of `test` (lines 91-93), for the captured `obj_sz`. -/
def is_small (obj_sz : Nat) (obj : NotSmallObject) : Bool :=
  obj.is_smaller_than (obj_sz / 10)

/-- The lambda `has_small_sum` of `test` (lines 95-97), for the captured
`obj_sz`: `obj.is_sum_smaller_than((obj_sz * (obj_sz - 1)) / 20)`, the argument
computed in `std::size_t`. -/
def has_small_sum (obj_sz : Nat) (obj : NotSmallObject) : Bool :=
  obj.is_sum_smaller_than (size_t (obj_sz * size_t (obj_sz + 2 ^ 64 - 1)) / 20)

end SwapErase

namespace Accumulate

/-! ## Sequential and parallel accumulation -/

/-- Conversion to `std::size_t` (64 bits). -/
def size_t (n : Nat) : Nat := n % 2 ^ 64

/-- Conversion to `unsigned int` (32 bits). -/
def uint (n : Nat) : Nat := n % 2 ^ 32

/-- Conversion to `long`: 64 bits, two's complement. Signed arithmetic is
taken modulo `2^64`, as the compiled program computes it. -/
def to_long (z : Int) : Int := (z + 2 ^ 63) % 2 ^ 64 - 2 ^ 63

/-- Conversion to `long unsigned int` (64 bits). -/
def to_ulong (z : Int) : Nat := (z % 2 ^ 64).toNat

/-- The call `std::accumulate(first, last, 0l)` over `unsigned int` elements:
the accumulator is a `long`, and each round computes `acc + *it` in `long`. -/
def accumulate_long (xs : List Nat) (init : Int) : Int :=
  xs.foldl (fun acc x => to_long (acc + (x : Int))) init

/-- Function `sequential_acc` (lines 28-30); the `long` sum is converted to the
return type `long unsigned int`. -/
def sequential_acc (v : List Nat) : Nat :=
  to_ulong (accumulate_long v 0)

/-- First index `l * i / n` handed to worker `i` (line 41), in `std::size_t`. -/
def range_from (l n i : Nat) : Nat :=
  size_t (l * i) / n

/-- Past-the-end index `l * (i + 1) / n` handed to worker `i` (line 41); `i + 1`
is computed in `unsigned int`, the product in `std::size_t`. -/
def range_to (l n i : Nat) : Nat :=
  size_t (l * uint (i + 1)) / n

/-- The lambda `acc` (lines 33-35): `std::accumulate(&v[from], &v[to], 0l)`,
returned as `long unsigned int`. The pointer range must lie inside the storage
of `v` (`&v[to]` may be the past-the-end pointer); anything else is undefined. -/
def acc (v : List Nat) (first last : Nat) : Option Nat :=
  if first ≤ last ∧ last ≤ v.length then
    some (to_ulong (accumulate_long ((v.drop first).take (last - first)) 0))
  else none

/-- The reduction lambda of line 44, `sum + fut.get()`: `sum` is a `long`, the
future yields a `long unsigned int`, the addition is unsigned and its result is
converted back to the `long` accumulator. A future whose task was undefined
makes the whole reduction undefined. -/
def combine (sum : Option Int) (fut : Option Nat) : Option Int :=
  match sum, fut with
  | some s, some r => some (to_long (((to_ulong s + r) % 2 ^ 64 : Nat) : Int))
  | _, _ => none

/-- Function `parallel_acc` (lines 32-45): worker `i` of `n` sums the range
`[l * i / n, l * (i + 1) / n)`; the futures are then reduced in index order from
`0l`, and the `long` result is converted to `long unsigned int`. The workers only
read `v`, so each future is the value of its task. -/
def parallel_acc (v : List Nat) (n : Nat) : Option Nat :=
  let l := v.length
  let f := (List.range n).map (fun i => acc v (range_from l n i) (range_to l n i))
  (f.foldl combine (some 0)).map to_ulong

/-- The check `assert(res_seq == res_par)` of `main` (lines 74-85), where
`res_par = parallel_acc(v, 2u)`; `false` also when the parallel run is
undefined. -/
def main_assertion (v : List Nat) : Bool :=
  decide (parallel_acc v 2 = some (sequential_acc v))

end Accumulate

namespace SwapErase

variable {α : Type}

/-! ## Reading and writing in the middle of a vector -/

theorem deref_mid (A R : List α) (x : α) (p : Int) (hp : p = A.length) :
    deref (A ++ x :: R) p = some x := by
  subst hp
  have h : (A ++ x :: R)[A.length]? = some x := by
    rw [List.getElem?_append_right (Nat.le_refl _)]
    simp
  simpa [deref] using h

theorem store_mid (A R : List α) (x z : α) (p : Int) (hp : p = A.length) :
    store (A ++ x :: R) p z = some (A ++ z :: R) := by
  subst hp
  simp [store]

theorem swap_body_spec (condition : α → Bool) : BodySpec condition (swap_body condition) where
  keep := by
    intro s A R x hv hit hc
    simp [swap_body, hv, deref_mid A R x s.it hit, hc]
  last := by
    intro s A T x hv hit hl hc
    refine ⟨x, ?_⟩
    have h1 : s.iter_to_last - 1 = A.length := by omega
    simp [swap_body, hv, deref_mid A T x s.it hit, hc, deref_mid A T x _ h1,
      store_mid A T x x s.it hit, store_mid A T x x _ h1]
  rot := by
    intro s A M T x y hv hit hl hc
    refine ⟨x, ?_⟩
    have h1 : s.iter_to_last - 1 = (A ++ x :: M).length := by simp; omega
    have h2 : s.iter_to_last - 1 = (A ++ y :: M).length := by simp; omega
    have e1 : A ++ x :: (M ++ y :: T) = (A ++ x :: M) ++ y :: T := by simp
    have e2 : A ++ y :: (M ++ y :: T) = (A ++ y :: M) ++ y :: T := by simp
    have e3 : A ++ y :: (M ++ x :: T) = (A ++ y :: M) ++ x :: T := by simp
    have d1 : deref (A ++ x :: (M ++ y :: T)) s.it = some x := deref_mid A _ x s.it hit
    have d2 : deref (A ++ x :: (M ++ y :: T)) (s.iter_to_last - 1) = some y := by
      rw [e1]; exact deref_mid _ T y _ h1
    have s1 : store (A ++ x :: (M ++ y :: T)) s.it y = some (A ++ y :: (M ++ y :: T)) :=
      store_mid A _ x y s.it hit
    have s2 : store (A ++ y :: (M ++ y :: T)) (s.iter_to_last - 1) x
        = some (A ++ y :: (M ++ x :: T)) := by
      rw [e2, e3]; exact store_mid _ T y x _ h2
    simp only [swap_body, hv, d1, hc, d2, s1, s2, if_true]

theorem move_body_spec (moved : α → α) (condition : α → Bool) :
    BodySpec condition (move_body moved condition) where
  keep := by
    intro s A R x hv hit hc
    simp [move_body, hv, deref_mid A R x s.it hit, hc]
  last := by
    intro s A T x hv hit hl hc
    refine ⟨moved x, ?_⟩
    have h1 : s.iter_to_last - 1 = A.length := by omega
    simp [move_body, hv, deref_mid A T x s.it hit, hc, deref_mid A T x _ h1,
      store_mid A T x x s.it hit, store_mid A T x (moved x) _ h1]
  rot := by
    intro s A M T x y hv hit hl hc
    refine ⟨moved y, ?_⟩
    have h1 : s.iter_to_last - 1 = (A ++ x :: M).length := by simp; omega
    have h2 : s.iter_to_last - 1 = (A ++ y :: M).length := by simp; omega
    have e1 : A ++ x :: (M ++ y :: T) = (A ++ x :: M) ++ y :: T := by simp
    have e2 : A ++ y :: (M ++ y :: T) = (A ++ y :: M) ++ y :: T := by simp
    have e3 : A ++ y :: (M ++ moved y :: T) = (A ++ y :: M) ++ moved y :: T := by simp
    have d1 : deref (A ++ x :: (M ++ y :: T)) s.it = some x := deref_mid A _ x s.it hit
    have d2 : deref (A ++ x :: (M ++ y :: T)) (s.iter_to_last - 1) = some y := by
      rw [e1]; exact deref_mid _ T y _ h1
    have s1 : store (A ++ x :: (M ++ y :: T)) s.it y = some (A ++ y :: (M ++ y :: T)) :=
      store_mid A _ x y s.it hit
    have s2 : store (A ++ y :: (M ++ y :: T)) (s.iter_to_last - 1) (moved y)
        = some (A ++ y :: (M ++ moved y :: T)) := by
      rw [e2, e3]; exact store_mid _ T y (moved y) _ h2
    simp only [move_body, hv, d1, hc, d2, s1, s2, if_true]

/-! ## The loop invariant

The vector is `A ++ M ++ T`: `A` holds the elements already kept, `M` the
unclassified ones (`it` points at its head, `iter_to_last` past its end) and
`T` the discarded tail. -/

theorem for_loop_spec (condition : α → Bool) (body : Frame α → Option (Frame α))
    (hb : BodySpec condition body) :
    ∀ (n : Nat) (M : List α), M.length = n → ∀ (A T : List α) (s : Frame α) (fuel : Nat),
      s.v = A ++ M ++ T → s.it = A.length → s.iter_to_last = A.length + M.length →
      n < fuel →
      ∃ (K T1 : List α) (ev : List Access),
        for_loop body fuel s = some
          { v := A ++ K ++ T1, it := ((A.length + K.length : Nat) : Int),
            iter_to_last := ((A.length + K.length : Nat) : Int), log := ev ++ s.log } ∧
        T1.length + K.length = T.length + M.length ∧
        K.Perm (M.filter (fun x => !condition x)) ∧
        M.takeWhile (fun x => !condition x) <+: K ∧
        calls ev = M.length ∧
        transfers ev = M.countP condition ∧
        ∀ e ∈ ev, Access.valid (A.length + M.length + T.length) e := by
  intro n
  induction n with
  | zero =>
    intro M hM A T s fuel hv hit hl hf
    have hM0 : M = [] := List.length_eq_zero.mp hM
    subst hM0
    obtain ⟨f, rfl⟩ : ∃ f, fuel = f + 1 := ⟨fuel - 1, by omega⟩
    refine ⟨[], T, [Access.test s.it s.iter_to_last], ?_, by simp, by simp, by simp,
      by simp [calls], by simp [transfers], ?_⟩
    · have hlt : ¬ s.it < s.iter_to_last := by simp at hl; omega
      simp only [for_loop, hlt, if_false]
      simp at hv hl
      simp [hv, hit, hl]
    · intro e he
      simp at he
      subst he
      simp at hl
      simp [Access.valid, hit, hl]
  | succ n ih =>
    intro M hM A T s fuel hv hit hl hf
    obtain ⟨f, rfl⟩ : ∃ f, fuel = f + 1 := ⟨fuel - 1, by omega⟩
    obtain ⟨x, M1, rfl⟩ : ∃ x M1, M = x :: M1 := by
      cases M with
      | nil => simp at hM
      | cons x M1 => exact ⟨x, M1, rfl⟩
    simp only [List.length_cons] at hM hl
    have hM1 : M1.length = n := by omega
    have hlt : s.it < s.iter_to_last := by omega
    have hv1 : s.v = A ++ x :: (M1 ++ T) := by simp [hv]
    cases hc : condition x with
    | false =>
      have hbody := hb.keep { s with log := Access.test s.it s.iter_to_last :: s.log }
        A (M1 ++ T) x hv1 hit hc
      obtain ⟨K, T1, ev, hrun, hlen, hperm, hpre, hcalls, htr, hval⟩ :=
        ih M1 hM1 (A ++ [x]) T
          { v := s.v, it := s.it + 1, iter_to_last := s.iter_to_last,
            log := Access.call s.it :: Access.test s.it s.iter_to_last :: s.log } f
          (by simp [hv]) (by simp [hit]) (by simp [hl]; omega) (by omega)
      refine ⟨x :: K, T1, ev ++ [Access.call s.it, Access.test s.it s.iter_to_last],
        ?_, ?_, ?_, ?_, ?_, ?_, ?_⟩
      · simp only [for_loop, hlt, if_true, hbody, hrun]
        simp
        omega
      · simp; omega
      · simpa [hc] using hperm
      · simpa [hc, List.takeWhile_cons] using hpre
      · simp [calls, List.countP_append] at hcalls ⊢
        omega
      · simp [transfers, List.countP_append, hc] at htr ⊢
        omega
      · intro e he
        rw [List.mem_append] at he
        rcases he with he | he
        · have := hval e he
          simpa [Nat.add_assoc, Nat.add_comm 1] using this
        · simp at he
          rcases he with rfl | rfl
          · simp [Access.valid, hit]; omega
          · simp [Access.valid, hit, hl]; omega
    | true =>
      rcases List.eq_nil_or_concat M1 with hnil | ⟨M2, y, hcat⟩
      · subst hnil
        simp only [List.length_nil] at hM1 hl
        obtain ⟨x1, hbody⟩ := hb.last { s with log := Access.test s.it s.iter_to_last :: s.log }
          A T x (by simpa using hv1) hit (by simpa using hl) hc
        obtain ⟨K, T1, ev, hrun, hlen, hperm, hpre, hcalls, htr, hval⟩ :=
          ih [] hM1 A (x1 :: T)
            { v := A ++ x1 :: T, it := s.it - 1 + 1, iter_to_last := s.iter_to_last - 1,
              log := Access.transfer s.it (s.iter_to_last - 1) :: Access.call s.it ::
                Access.test s.it s.iter_to_last :: s.log } f
            (by simp) (by simp [hit]) (by simp [hl]) (by omega)
        refine ⟨K, T1, ev ++ [Access.transfer s.it (s.iter_to_last - 1), Access.call s.it,
          Access.test s.it s.iter_to_last], ?_, ?_, ?_, ?_, ?_, ?_, ?_⟩
        · simp only [for_loop, hlt, if_true, hbody, hrun]
          simp
        · simp at hlen ⊢; omega
        · simpa [hc] using hperm
        · simp [hc, List.takeWhile_cons]
        · have h1 : ∀ l : List Access, calls (ev ++ l) = calls ev + calls l := by
            intro l; simp [calls, List.countP_append]
          rw [h1, hcalls]
          simp [calls]
        · have h1 : ∀ l : List Access, transfers (ev ++ l) = transfers ev + transfers l := by
            intro l; simp [transfers, List.countP_append]
          rw [h1, htr]
          simp [transfers, hc]
        · intro e he
          rw [List.mem_append] at he
          rcases he with he | he
          · have := hval e he
            simpa [Nat.add_assoc, Nat.add_comm 1] using this
          · simp at he
            rcases he with rfl | rfl | rfl
            · simp [Access.valid, hit, hl]; omega
            · simp [Access.valid, hit]; omega
            · simp [Access.valid, hit, hl]
      · rw [List.concat_eq_append] at hcat
        subst hcat
        simp only [List.length_append, List.length_singleton] at hM1 hl
        obtain ⟨y1, hbody⟩ := hb.rot { s with log := Access.test s.it s.iter_to_last :: s.log }
          A M2 T x y (by simpa using hv1) hit (by simp [hl]; omega) hc
        obtain ⟨K, T1, ev, hrun, hlen, hperm, hpre, hcalls, htr, hval⟩ :=
          ih (y :: M2) (by simp; omega) A (y1 :: T)
            { v := A ++ y :: (M2 ++ y1 :: T), it := s.it - 1 + 1,
              iter_to_last := s.iter_to_last - 1,
              log := Access.transfer s.it (s.iter_to_last - 1) :: Access.call s.it ::
                Access.test s.it s.iter_to_last :: s.log } f
            (by simp) (by simp [hit]) (by simp [hl]; omega) (by omega)
        refine ⟨K, T1, ev ++ [Access.transfer s.it (s.iter_to_last - 1), Access.call s.it,
          Access.test s.it s.iter_to_last], ?_, ?_, ?_, ?_, ?_, ?_, ?_⟩
        · simp only [for_loop, hlt, if_true, hbody, hrun]
          simp
        · simp at hlen ⊢; omega
        · refine hperm.trans ?_
          have hp : (y :: M2).Perm (M2 ++ [y]) := by
            simpa using (List.perm_append_comm : ([y] ++ M2).Perm (M2 ++ [y]))
          have := hp.filter (fun x => !condition x)
          simpa [hc] using this
        · simp [hc, List.takeWhile_cons]
        · have h1 : ∀ l : List Access, calls (ev ++ l) = calls ev + calls l := by
            intro l; simp [calls, List.countP_append]
          rw [h1, hcalls]
          simp [calls]
        · have h1 : ∀ l : List Access, transfers (ev ++ l) = transfers ev + transfers l := by
            intro l; simp [transfers, List.countP_append]
          rw [h1, htr]
          simp [transfers, hc, List.countP_append, List.countP_cons]
        · intro e he
          rw [List.mem_append] at he
          rcases he with he | he
          · have := hval e he
            have hn : A.length + (y :: M2).length + (y1 :: T).length
                = A.length + (x :: (M2 ++ [y])).length + T.length := by
              simp; omega
            rw [hn] at this
            exact this
          · simp at he
            rcases he with rfl | rfl | rfl
            · simp [Access.valid, hit, hl]; omega
            · simp [Access.valid, hit]; omega
            · simp [Access.valid, hit, hl]; omega

/-- The loop of either function, from the entry frame: it exits with the
kept elements `K` in front and cursor and boundary both just past them. -/
theorem run_spec (condition : α → Bool) (body : Frame α → Option (Frame α))
    (hb : BodySpec condition body) (S : List α) :
    ∃ (K T1 : List α) (ev : List Access),
      for_loop body (S.length + 1) (entry S) = some
        { v := K ++ T1, it := (K.length : Int), iter_to_last := (K.length : Int), log := ev } ∧
      T1.length + K.length = S.length ∧
      K.Perm (S.filter (fun x => !condition x)) ∧
      S.takeWhile (fun x => !condition x) <+: K ∧
      calls ev = S.length ∧
      transfers ev = S.countP condition ∧
      ∀ e ∈ ev, Access.valid S.length e := by
  obtain ⟨K, T1, ev, hrun, hlen, hperm, hpre, hcalls, htr, hval⟩ :=
    for_loop_spec condition body hb S.length S rfl [] [] (entry S) (S.length + 1)
      (by simp [entry]) (by simp [entry]) (by simp [entry]) (by omega)
  refine ⟨K, T1, ev, ?_, by simpa using hlen, hperm, hpre, hcalls, htr, ?_⟩
  · rw [hrun]
    simp [entry]
  · intro e he
    simpa using hval e he

theorem erase_to_end_kept (K T1 : List α) :
    erase_to_end (K ++ T1) (K.length : Int) = some K := by
  simp [erase_to_end]

/-- Result of `swap_erase`, with everything the claims need. -/
theorem swap_erase_spec (S : List α) (condition : α → Bool) :
    ∃ K : List α, swap_erase S condition = some K ∧
      K.Perm (S.filter (fun x => !condition x)) ∧
      S.takeWhile (fun x => !condition x) <+: K := by
  obtain ⟨K, T1, ev, hrun, -, hperm, hpre, -, -, -⟩ :=
    run_spec condition (swap_body condition) (swap_body_spec condition) S
  refine ⟨K, ?_, hperm, hpre⟩
  simp only [swap_erase, swap_run, hrun]
  exact erase_to_end_kept K T1

/-- Result of `move_erase`, with everything the claims need. -/
theorem move_erase_spec (moved : α → α) (S : List α) (condition : α → Bool) :
    ∃ K : List α, move_erase moved S condition = some K ∧
      K.Perm (S.filter (fun x => !condition x)) ∧
      S.takeWhile (fun x => !condition x) <+: K := by
  obtain ⟨K, T1, ev, hrun, -, hperm, hpre, -, -, -⟩ :=
    run_spec condition (move_body moved condition) (move_body_spec moved condition) S
  refine ⟨K, ?_, hperm, hpre⟩
  simp only [move_erase, move_run, hrun]
  exact erase_to_end_kept K T1

theorem filter_not_length (S : List α) (condition : α → Bool) :
    (S.filter (fun x => !condition x)).length = S.countP (fun x => !condition x) := by
  rw [List.countP_eq_length_filter]

/-- C1. For every sequence `S` (non-empty or not) and every predicate `P`,
`swap_erase(S, P)` returns, and the sequence it leaves is a permutation of the
elements of `S` that fail `P` (what the baseline `erase(remove_if(...))`
keeps), each with its multiplicity, and holds no element satisfying `P`. -/
theorem C1_swap_erase_keeps_failing (S : List α) (P : α → Bool) :
    ∃ r : List α, swap_erase S P = some r ∧
      r.Perm (remove_erase S P) ∧
      (∀ x ∈ r, P x = false) := by
  obtain ⟨K, hK, hperm, -⟩ := swap_erase_spec S P
  refine ⟨K, hK, hperm, ?_⟩
  intro x hx
  have := hperm.mem_iff.mp hx
  simpa using (List.mem_filter.mp this).2

/-- C2. For every sequence `S`, the empty one included, and every predicate
`P`, `swap_erase(S, P)` and `move_erase(S, P)` both return, and the length of
the sequence each leaves is the number of elements of `S` that fail `P`. -/
theorem C2_length_is_count_failing (moved : α → α) (S : List α) (P : α → Bool) :
    ∃ r1 r2 : List α, swap_erase S P = some r1 ∧ move_erase moved S P = some r2 ∧
      r1.length = S.countP (fun x => !P x) ∧ r2.length = S.countP (fun x => !P x) := by
  obtain ⟨K1, hK1, hp1, -⟩ := swap_erase_spec S P
  obtain ⟨K2, hK2, hp2, -⟩ := move_erase_spec moved S P
  exact ⟨K1, K2, hK1, hK2, by rw [hp1.length_eq, filter_not_length],
    by rw [hp2.length_eq, filter_not_length]⟩

/-- C4. For every sequence `S` and predicate `P`, `swap_erase` and `move_erase`
run on equal copies of `S` leave sequences of the same length and with the same
multiset of elements, all of them failing `P`. -/
theorem C4_swap_move_agree (moved : α → α) (S : List α) (P : α → Bool) :
    ∃ r1 r2 : List α, swap_erase S P = some r1 ∧ move_erase moved S P = some r2 ∧
      r1.length = r2.length ∧ r1.Perm r2 ∧
      (∀ x ∈ r1, P x = false) ∧ (∀ x ∈ r2, P x = false) := by
  obtain ⟨K1, hK1, hp1, -⟩ := swap_erase_spec S P
  obtain ⟨K2, hK2, hp2, -⟩ := move_erase_spec moved S P
  have hfail : ∀ K : List α, K.Perm (S.filter (fun x => !P x)) → ∀ x ∈ K, P x = false := by
    intro K hp x hx
    simpa using (List.mem_filter.mp (hp.mem_iff.mp hx)).2
  exact ⟨K1, K2, hK1, hK2, (hp1.trans hp2.symm).length_eq, hp1.trans hp2.symm,
    hfail K1 hp1, hfail K2 hp2⟩

/-- When no element satisfies the condition, `swap_erase` leaves the vector as
it was, order included. -/
theorem swap_erase_of_all_fail (S : List α) (condition : α → Bool)
    (h : ∀ x ∈ S, condition x = false) : swap_erase S condition = some S := by
  obtain ⟨K, hK, hperm, hpre⟩ := swap_erase_spec S condition
  have hf : S.filter (fun x => !condition x) = S := by
    rw [List.filter_eq_self]
    intro x hx
    simp [h x hx]
  have ht : S.takeWhile (fun x => !condition x) = S := by
    rw [List.takeWhile_eq_self_iff]
    intro x hx
    simp [h x hx]
  rw [hf] at hperm
  rw [ht] at hpre
  have : S = K := hpre.eq_of_length hperm.length_eq.symm
  rw [hK, this]

/-- C5. `swap_erase` is idempotent for a fixed predicate: run on its own
result with the same `P`, it removes nothing and returns that result unchanged,
order included. -/
theorem C5_swap_erase_idempotent (S : List α) (P : α → Bool) :
    ∃ r : List α, swap_erase S P = some r ∧ swap_erase r P = some r := by
  obtain ⟨K, hK, hperm, -⟩ := swap_erase_spec S P
  refine ⟨K, hK, swap_erase_of_all_fail K P ?_⟩
  intro x hx
  simpa using (List.mem_filter.mp (hperm.mem_iff.mp hx)).2

/-- C8. For every sequence `S` and predicate `P`, the elements of `S` that
precede the first element satisfying `P` keep their positions in the result of
`swap_erase(S, P)`; when no element of `S` satisfies `P` the result is `S`,
order included. -/
theorem C8_prefix_positions_kept (S : List α) (P : α → Bool) :
    ∃ r : List α, swap_erase S P = some r ∧
      S.takeWhile (fun x => !P x) <+: r ∧
      (∀ i : Nat, i < (S.takeWhile (fun x => !P x)).length → r[i]? = S[i]?) ∧
      ((∀ x ∈ S, P x = false) → r = S) := by
  obtain ⟨K, hK, hperm, hpre⟩ := swap_erase_spec S P
  refine ⟨K, hK, hpre, ?_, ?_⟩
  · intro i hi
    obtain ⟨t, ht⟩ := hpre
    have hS : S.takeWhile (fun x => !P x) ++ S.dropWhile (fun x => !P x) = S :=
      List.takeWhile_append_dropWhile _ S
    have h1 : K[i]? = (S.takeWhile (fun x => !P x))[i]? := by
      rw [← ht, List.getElem?_append_left hi]
    have h2 : S[i]? = (S.takeWhile (fun x => !P x))[i]? := by
      conv_lhs => rw [← hS]
      rw [List.getElem?_append_left hi]
    rw [h1, h2]
  · intro h
    have := swap_erase_of_all_fail S P h
    rw [hK] at this
    exact Option.some.inj this

/-- C9. For every sequence `S` of length `n` and predicate `P`, the loop of
`swap_erase` terminates (the loop test fails at the exit frame) after exactly
`n` calls of `P` (none when `S` is empty) and exactly `k` exchanges, `k` being
the number of elements of `S` that satisfy `P`; the loop of `move_erase` makes
the same number of calls and of move transfers. -/
theorem C9_calls_and_transfers (moved : α → α) (S : List α) (P : α → Bool) :
    ∃ s1 s2 : Frame α, swap_run S P = some s1 ∧ move_run moved S P = some s2 ∧
      ¬ s1.it < s1.iter_to_last ∧ ¬ s2.it < s2.iter_to_last ∧
      calls s1.log = S.length ∧ transfers s1.log = S.countP P ∧
      calls s2.log = S.length ∧ transfers s2.log = S.countP P := by
  obtain ⟨K1, T1, ev1, hrun1, -, -, -, hc1, ht1, -⟩ :=
    run_spec P (swap_body P) (swap_body_spec P) S
  obtain ⟨K2, T2, ev2, hrun2, -, -, -, hc2, ht2, -⟩ :=
    run_spec P (move_body moved P) (move_body_spec moved P) S
  exact ⟨_, _, hrun1, hrun2, by simp, by simp, hc1, ht1, hc2, ht2⟩

/-- The scenario of the specification: `[2, 0, 1, 2, 0]` with the condition
`value == 0` leaves `[2, 2, 1]` under both functions. -/
theorem erase_scenario :
    swap_erase [2, 0, 1, 2, 0] (fun x : Nat => x == 0) = some [2, 2, 1] ∧
    move_erase (fun _ => 0) [2, 0, 1, 2, 0] (fun x : Nat => x == 0) = some [2, 2, 1] := by
  decide

/-- The rewind of the cursor below `v.begin()`: on `[0, 1]` with the condition
`x == 0`, the first round of `swap_erase` leaves the body with `it` at `-1`. -/
theorem swap_body_rewinds_below_begin :
    (swap_body (fun x : Nat => x == 0) (entry [0, 1])).map (fun s => (s.it, s.iter_to_last))
      = some (-1, 1) := by
  decide

/-- C10. In `swap_erase` and `move_erase`, for every sequence `S` and predicate
`P`, the loop runs to its exit without an out-of-range access, and every logged
event is valid for `len(S)`: each position where `P` is called or an element is
read or written lies in `[0, len(S))`, and each loop test sees
`it ≤ iter_to_last ≤ len(S)`. -/
theorem C10_accesses_in_bounds (moved : α → α) (S : List α) (P : α → Bool) :
    ∃ s1 s2 : Frame α, swap_run S P = some s1 ∧ move_run moved S P = some s2 ∧
      (∀ e ∈ s1.log, Access.valid S.length e) ∧
      (∀ e ∈ s2.log, Access.valid S.length e) := by
  obtain ⟨K1, T1, ev1, hrun1, -, -, -, -, -, hv1⟩ :=
    run_spec P (swap_body P) (swap_body_spec P) S
  obtain ⟨K2, T2, ev2, hrun2, -, -, -, -, -, hv2⟩ :=
    run_spec P (move_body moved P) (move_body_spec moved P) S
  exact ⟨_, _, hrun1, hrun2, hv1, hv2⟩

end SwapErase

namespace Accumulate

/-! ## The index ranges of `parallel_acc` -/

theorem range_from_eq (l n i : Nat) (hi : i ≤ n) (hov : l * n < 2 ^ 64) :
    range_from l n i = l * i / n := by
  have h : l * i < 2 ^ 64 := lt_of_le_of_lt (Nat.mul_le_mul_left l hi) hov
  unfold range_from size_t
  rw [Nat.mod_eq_of_lt h]

theorem range_to_eq (l n i : Nat) (hi : i < n) (hn32 : n < 2 ^ 32) (hov : l * n < 2 ^ 64) :
    range_to l n i = l * (i + 1) / n := by
  have h1 : i + 1 < 2 ^ 32 := by omega
  have h : l * (i + 1) < 2 ^ 64 := lt_of_le_of_lt (Nat.mul_le_mul_left l hi) hov
  unfold range_to size_t uint
  rw [Nat.mod_eq_of_lt h1, Nat.mod_eq_of_lt h]

theorem bound_mono (l n : Nat) {i j : Nat} (hij : i ≤ j) : l * i / n ≤ l * j / n :=
  Nat.div_le_div_right (Nat.mul_le_mul_left l hij)

theorem bound_last (l n : Nat) (hn : 1 ≤ n) : l * n / n = l :=
  Nat.mul_div_cancel l hn

/-- Two consecutive bounds differ by `l / n` or by `l / n + 1`. -/
theorem bound_step (l n i : Nat) (hn : 1 ≤ n) :
    l * i / n + l / n ≤ l * (i + 1) / n ∧ l * (i + 1) / n ≤ l * i / n + l / n + 1 := by
  have hl : l = l % n + n * (l / n) := (Nat.mod_add_div l n).symm
  have hr : l % n < n := Nat.mod_lt l hn
  have e : l * (i + 1) = (l * i + l % n) + n * (l / n) := by
    rw [Nat.mul_succ, Nat.add_assoc, ← hl]
  have e2 : l * (i + 1) / n = (l * i + l % n) / n + l / n := by
    rw [e, Nat.add_mul_div_left _ _ hn]
  have lo : l * i / n ≤ (l * i + l % n) / n := Nat.div_le_div_right (Nat.le_add_right _ _)
  have hi : (l * i + l % n) / n ≤ l * i / n + 1 := by
    have : (l * i + l % n) / n ≤ (l * i + n) / n :=
      Nat.div_le_div_right (Nat.add_le_add_left hr.le _)
    rwa [Nat.add_div_right _ hn] at this
  omega

theorem bound_cover (l n : Nat) (p : Nat) :
    ∀ m : Nat, p < l * m / n → ∃ i, i < m ∧ l * i / n ≤ p ∧ p < l * (i + 1) / n := by
  intro m
  induction m with
  | zero => intro h; simp at h
  | succ m ih =>
    intro h
    by_cases hp : p < l * m / n
    · obtain ⟨i, hi, h1, h2⟩ := ih hp
      exact ⟨i, by omega, h1, h2⟩
    · exact ⟨m, by omega, by omega, h⟩

/-- C7. For every vector length `l` and worker count `n ≥ 1` (an `unsigned
int`, with `l * n` not overflowing `std::size_t`), the index ranges
`[l*i/n, l*(i+1)/n)`, `i = 0..n-1`, of `parallel_acc` start at `0`, end at `l`,
are contiguous, ordered and pairwise disjoint, stay within `[0, l]`, contain
every index of `[0, l)` exactly once, and any two of their lengths differ by at
most one. -/
theorem C7_ranges_partition (l n : Nat) (hn : 1 ≤ n) (hn32 : n < 2 ^ 32)
    (hov : l * n < 2 ^ 64) :
    range_from l n 0 = 0 ∧ range_to l n (n - 1) = l ∧
    (∀ i, i + 1 < n → range_to l n i = range_from l n (i + 1)) ∧
    (∀ i, i < n → range_from l n i ≤ range_to l n i ∧ range_to l n i ≤ l) ∧
    (∀ i j, i < j → j < n → range_to l n i ≤ range_from l n j) ∧
    (∀ p, p < l → ∃! i, i < n ∧ range_from l n i ≤ p ∧ p < range_to l n i) ∧
    (∀ i j, i < n → j < n →
      range_to l n i - range_from l n i ≤ range_to l n j - range_from l n j + 1) := by
  have hf : ∀ i, i ≤ n → range_from l n i = l * i / n := fun i hi => range_from_eq l n i hi hov
  have ht : ∀ i, i < n → range_to l n i = l * (i + 1) / n :=
    fun i hi => range_to_eq l n i hi hn32 hov
  refine ⟨?_, ?_, ?_, ?_, ?_, ?_, ?_⟩
  · rw [hf 0 (by omega)]; simp
  · rw [ht (n - 1) (by omega), Nat.sub_add_cancel hn, bound_last l n hn]
  · intro i hi
    rw [ht i (by omega), hf (i + 1) (by omega)]
  · intro i hi
    rw [hf i hi.le, ht i hi]
    refine ⟨bound_mono l n (Nat.le_succ i), ?_⟩
    have := bound_mono l n (show i + 1 ≤ n from hi)
    rwa [bound_last l n hn] at this
  · intro i j hij hj
    rw [ht i (by omega), hf j hj.le]
    exact bound_mono l n hij
  · intro p hp
    obtain ⟨i, hi, h1, h2⟩ := bound_cover l n p n (by rwa [bound_last l n hn])
    refine ⟨i, ⟨hi, by rwa [hf i hi.le], by rwa [ht i hi]⟩, ?_⟩
    rintro j ⟨hj, hj1, hj2⟩
    rw [hf j hj.le] at hj1
    rw [ht j hj] at hj2
    by_contra hne
    rcases Nat.lt_or_gt_of_ne hne with hlt | hgt
    · have := bound_mono l n (show j + 1 ≤ i from hlt)
      omega
    · have := bound_mono l n (show i + 1 ≤ j from hgt)
      omega
  · intro i j hi hj
    rw [hf i hi.le, ht i hi, hf j hj.le, ht j hj]
    have := bound_step l n i hn
    have := bound_step l n j hn
    omega

/-- C7 at `l = 5`, `n = 4`: the hypotheses hold and the four ranges end at `5`,
follow one another and cover each index once. -/
theorem C7_ranges_partition_witness :
    (1 ≤ 4 ∧ 4 < 2 ^ 32 ∧ 5 * 4 < 2 ^ 64) ∧
    range_from 5 4 0 = 0 ∧ range_to 5 4 (4 - 1) = 5 ∧
    (∀ i, i + 1 < 4 → range_to 5 4 i = range_from 5 4 (i + 1)) ∧
    (∀ p, p < 5 → ∃! i, i < 4 ∧ range_from 5 4 i ≤ p ∧ p < range_to 5 4 i) :=
  have h := C7_ranges_partition 5 4 (by decide) (by decide) (by decide)
  ⟨⟨by decide, by decide, by decide⟩, h.1, h.2.1, h.2.2.1, h.2.2.2.2.2.1⟩

/-! ## The two sums -/

theorem to_long_emod (z : Int) : to_long z % 2 ^ 64 = z % 2 ^ 64 := by
  unfold to_long; omega

theorem accumulate_long_emod (xs : List Nat) :
    ∀ init : Int, accumulate_long xs init % 2 ^ 64 = (init + (xs.sum : Nat)) % 2 ^ 64 := by
  induction xs with
  | nil => intro init; simp [accumulate_long]
  | cons x xs ih =>
    intro init
    have e : accumulate_long (x :: xs) init = accumulate_long xs (to_long (init + (x : Int))) := rfl
    rw [e, ih]
    have h := to_long_emod (init + (x : Int))
    simp only [List.sum_cons]
    push_cast
    omega

theorem to_ulong_accumulate (xs : List Nat) :
    to_ulong (accumulate_long xs 0) = xs.sum % 2 ^ 64 := by
  have h := accumulate_long_emod xs 0
  unfold to_ulong
  omega

theorem sequential_acc_eq (v : List Nat) : sequential_acc v = v.sum % 2 ^ 64 :=
  to_ulong_accumulate v

theorem acc_eq (v : List Nat) (a b : Nat) (hab : a ≤ b) (hb : b ≤ v.length) :
    acc v a b = some (((v.drop a).take (b - a)).sum % 2 ^ 64) := by
  simp [acc, hab, hb, to_ulong_accumulate]

theorem sum_take_step (v : List Nat) (a b : Nat) (hab : a ≤ b) :
    (v.take b).sum = (v.take a).sum + ((v.drop a).take (b - a)).sum := by
  have e : b = a + (b - a) := by omega
  conv_lhs => rw [e, List.take_add, List.sum_append]

theorem combine_emod (s : Int) (r : Nat) :
    ∃ z : Int, combine (some s) (some r) = some z ∧ z % 2 ^ 64 = (s + (r : Int)) % 2 ^ 64 := by
  refine ⟨_, rfl, ?_⟩
  rw [to_long_emod]
  unfold to_ulong
  push_cast
  omega

/-- Reducing the futures of the first `m` workers yields, modulo `2^64`, the
sum of the elements before the bound `l * m / n`. -/
theorem fold_futures (v : List Nat) (n : Nat) (hn : 1 ≤ n) (hn32 : n < 2 ^ 32)
    (hov : v.length * n < 2 ^ 64) :
    ∀ m : Nat, m ≤ n → ∃ z : Int,
      ((List.range m).map
        (fun i => acc v (range_from v.length n i) (range_to v.length n i))).foldl
          combine (some 0) = some z ∧
      z % 2 ^ 64 = (((v.take (v.length * m / n)).sum : Nat) : Int) % 2 ^ 64 := by
  intro m
  induction m with
  | zero => intro _; exact ⟨0, rfl, by simp⟩
  | succ m ih =>
    intro hm
    obtain ⟨z, hz, hzmod⟩ := ih (by omega)
    have hle : v.length * m / n ≤ v.length * (m + 1) / n := bound_mono _ n (Nat.le_succ m)
    have hlen : v.length * (m + 1) / n ≤ v.length := by
      have := bound_mono v.length n hm
      rwa [bound_last _ n hn] at this
    obtain ⟨z1, hz1, hz1mod⟩ := combine_emod z
      (((v.drop (v.length * m / n)).take (v.length * (m + 1) / n - v.length * m / n)).sum
        % 2 ^ 64)
    refine ⟨z1, ?_, ?_⟩
    · rw [List.range_succ, List.map_append, List.foldl_append, hz]
      simp only [List.map_cons, List.map_nil, List.foldl_cons, List.foldl_nil]
      rw [range_from_eq _ n m (by omega) hov, range_to_eq _ n m (by omega) hn32 hov,
        acc_eq v _ _ hle hlen, hz1]
    · rw [hz1mod, sum_take_step v _ _ hle]
      generalize (List.take (v.length * m / n) v).sum = sa at hzmod ⊢
      generalize (List.take (v.length * (m + 1) / n - v.length * m / n)
        (List.drop (v.length * m / n) v)).sum = sb
      omega

/-- For any worker count `n ≥ 1` whose index products do not overflow,
`parallel_acc` is defined and returns the value of `sequential_acc`. -/
theorem parallel_acc_eq (v : List Nat) (n : Nat) (hn : 1 ≤ n) (hn32 : n < 2 ^ 32)
    (hov : v.length * n < 2 ^ 64) :
    parallel_acc v n = some (sequential_acc v) := by
  obtain ⟨z, hz, hzmod⟩ := fold_futures v n hn hn32 hov n (Nat.le_refl n)
  rw [bound_last _ n hn, List.take_length] at hzmod
  simp only [parallel_acc, hz, Option.map_some', sequential_acc_eq]
  congr 1
  unfold to_ulong
  omega

/-- When the running sum stays below `2^63`, no addition of the `long`
accumulation leaves the range of `long`: the wrapped fold is the plain one. -/
theorem accumulate_long_no_overflow (xs : List Nat) :
    ∀ init : Int, 0 ≤ init → init + ((xs.sum : Nat) : Int) < 2 ^ 63 →
      accumulate_long xs init = xs.foldl (fun (a : Int) (x : Nat) => a + (x : Int)) init ∧
      accumulate_long xs init = init + ((xs.sum : Nat) : Int) := by
  induction xs with
  | nil => intro init _ _; simp [accumulate_long]
  | cons x xs ih =>
    intro init h0 hlt
    have e : accumulate_long (x :: xs) init = accumulate_long xs (to_long (init + (x : Int))) := rfl
    simp only [List.sum_cons, Nat.cast_add] at hlt
    have hx : to_long (init + (x : Int)) = init + (x : Int) := by
      unfold to_long; omega
    rw [e, hx, List.foldl_cons]
    obtain ⟨h1, h2⟩ := ih (init + (x : Int)) (by omega) (by omega)
    refine ⟨h1, ?_⟩
    rw [h2, List.sum_cons, Nat.cast_add]
    omega

/-- When the mathematical sum fits a `long`, `sequential_acc` returns it. -/
theorem sequential_acc_exact (v : List Nat) (h : v.sum < 2 ^ 63) :
    sequential_acc v = v.sum := by
  rw [sequential_acc_eq]
  exact Nat.mod_eq_of_lt (by omega)

/-- C3. For every non-empty vector `v` of `unsigned int` whose storage fits the
64-bit address space (`4 * size < 2^64`) and every worker count `k` in
`{1, 2, 4}`, `parallel_acc(v, k)` is defined and returns exactly the 64-bit value
of `sequential_acc(v)`; in particular the assertion of `main` (`k = 2`) holds. -/
theorem C3_parallel_eq_sequential (v : List Nat) (k : Nat) (_hv : v ≠ [])
    (_helt : ∀ x ∈ v, x < 2 ^ 32) (hsize : 4 * v.length < 2 ^ 64)
    (hk : k = 1 ∨ k = 2 ∨ k = 4) :
    parallel_acc v k = some (sequential_acc v) ∧ main_assertion v = true := by
  refine ⟨?_, ?_⟩
  · rcases hk with rfl | rfl | rfl
    · exact parallel_acc_eq v 1 (by omega) (by omega) (by omega)
    · exact parallel_acc_eq v 2 (by omega) (by omega) (by omega)
    · exact parallel_acc_eq v 4 (by omega) (by omega) (by omega)
  · simp [main_assertion, parallel_acc_eq v 2 (by omega) (by omega) (by omega)]

/-- C3 at `v = [2, 0, 1, 2, 0]`, `k = 4`. -/
theorem C3_parallel_eq_sequential_witness :
    ([2, 0, 1, 2, 0] : List Nat) ≠ [] ∧ (∀ x ∈ ([2, 0, 1, 2, 0] : List Nat), x < 2 ^ 32) ∧
    4 * ([2, 0, 1, 2, 0] : List Nat).length < 2 ^ 64 ∧
    parallel_acc [2, 0, 1, 2, 0] 4 = some (sequential_acc [2, 0, 1, 2, 0]) ∧
    main_assertion [2, 0, 1, 2, 0] = true :=
  ⟨by decide, by decide, by decide,
    C3_parallel_eq_sequential [2, 0, 1, 2, 0] 4 (by decide) (by decide) (by decide)
      (by decide)⟩

end Accumulate

namespace SwapErase

/-! ## The 32-bit accumulator of `is_sum_smaller_than` -/

theorem accumulate_uint_eq (xs : List Nat) :
    ∀ init : Nat, init < 2 ^ 32 → accumulate_uint xs init = (init + xs.sum) % 2 ^ 32 := by
  induction xs with
  | nil =>
    intro init h
    show init = (init + 0) % 2 ^ 32
    rw [Nat.add_zero, Nat.mod_eq_of_lt h]
  | cons x xs ih =>
    intro init h
    have e : accumulate_uint (x :: xs) init = accumulate_uint xs (uint (size_t (init + x))) := rfl
    have hlt : uint (size_t (init + x)) < 2 ^ 32 := Nat.mod_lt _ (by norm_num)
    rw [e, ih _ hlt, List.sum_cons]
    unfold uint size_t
    omega

theorem iota_eq_range (len : Nat) (h : len ≤ 2 ^ 32) : iota len = List.range len := by
  unfold iota
  conv_rhs => rw [← List.map_id (List.range len)]
  apply List.map_congr_left
  intro i hi
  have := List.mem_range.mp hi
  simp only [uint, id]
  exact Nat.mod_eq_of_lt (by omega)

theorem sum_range_mul_two (len : Nat) : (List.range len).sum * 2 = len * (len - 1) := by
  induction len with
  | zero => simp
  | succ k ih =>
    rw [List.range_succ, List.sum_append, Nat.add_mul, ih]
    cases k with
    | zero => simp
    | succ j => simp; ring

/-- Sum of the payload of a generated object. -/
theorem generate_sum (draw : Nat) (h : draw ≤ 2 ^ 32) :
    (NotSmallObject.generate draw).v.sum = draw * (draw - 1) / 2 := by
  have := sum_range_mul_two draw
  simp only [NotSmallObject.generate, iota_eq_range draw h]
  omega

/-- C6 (failing input). The object generated with `size = 92683` (allowed for
`sz = 100000`) has payload sum `4295022903`, which the `unsigned int`
accumulator reduces to `55607`; against `n = 499995000`, the bound that
`has_small_sum` passes for `obj_sz = 100000`, `is_sum_smaller_than` returns
`true` although the sum is not smaller than `n`. -/
theorem C6_sum_wraps_at_92683 :
    92683 ≤ 100000 ∧
    (NotSmallObject.generate 92683).v.sum = 4295022903 ∧
    accumulate_uint (NotSmallObject.generate 92683).v 0 = 55607 ∧
    (NotSmallObject.generate 92683).is_sum_smaller_than 499995000 = true ∧
    has_small_sum 100000 (NotSmallObject.generate 92683) = true ∧
    ¬ (NotSmallObject.generate 92683).v.sum < 499995000 := by
  have hs : (NotSmallObject.generate 92683).v.sum = 4295022903 := by
    rw [generate_sum 92683 (by norm_num)]
  have ha : accumulate_uint (NotSmallObject.generate 92683).v 0 = 55607 := by
    rw [accumulate_uint_eq _ 0 (by norm_num), hs]
    norm_num
  refine ⟨by norm_num, hs, ha, ?_, ?_, ?_⟩
  · simp [NotSmallObject.is_sum_smaller_than, ha]
  · simp [has_small_sum, NotSmallObject.is_sum_smaller_than, ha, size_t]
  · rw [hs]; norm_num

end SwapErase
